import Mathlib

/-!
Shallow embedding of the recipe-app backend (Django/DRF application).

Strings are modelled as lists of Unicode code points (`List Nat`), so that
Python string operations (`split`, `strip`, `lower`) and the database's
byte-order collation can be stated exactly.
-/

namespace RecipeApp

/-- Strings as lists of code points. -/
abbrev Str := List Nat

/-! ### Generic insertion sort by a boolean comparison (models SQL ORDER BY) -/

def insertLe {α : Type} (le : α → α → Bool) (a : α) : List α → List α
  | [] => [a]
  | b :: bs => if le a b then a :: b :: bs else b :: insertLe le a bs

def sortByLe {α : Type} (le : α → α → Bool) : List α → List α
  | [] => []
  | a :: as => insertLe le a (sortByLe le as)

/-! ### Lexicographic (byte-order) comparison on strings -/

def lexLe : Str → Str → Bool
  | [], _ => true
  | _ :: _, [] => false
  | a :: as, b :: bs => decide (a < b) || (decide (a = b) && lexLe as bs)

/-! ### Data model (core/models.py)

`Tag` and `Ingredient` have the same shape (`name` plus an owning `user`);
both are served by the shared `RecipeAttributesViewSet`, so a single record
type models both tables. Many-to-many associations are modelled as id lists
on the recipe (the join-table rows). -/

structure RecipeAttr where
  id : Nat
  name : Str
  user : Nat
deriving DecidableEq

structure Recipe where
  id : Nat
  title : Str
  time_minutes : Int
  /-- price is Decimal(5,2); modelled in fixed-point hundredths. -/
  price : Int
  link : Str
  image : Option Str
  ingredients : List Nat
  tags : List Nat
  user : Nat
deriving DecidableEq

structure DB where
  tags : List RecipeAttr
  ingredients : List RecipeAttr
  recipes : List Recipe
deriving DecidableEq

/-! ### Query parameters

`request.query_params.get(k, default)` yields the parameter string when the
parameter is present, else the default. Python's `if param:` test on the
result is truthy exactly when the parameter is present with a non-empty
string value. -/

def paramTruthy : Option Str → Bool
  | none => false
  | some s => !s.isEmpty

/-! ### Tag / Ingredient list queryset (views.py, RecipeAttributesViewSet.get_queryset)

`queryset.filter(recipe__isnull=False)` joins each attribute row with the
recipes referencing it, producing one row per (attribute, referencing recipe)
pair and keeping only attributes referenced by at least one recipe — a recipe
of any user. The chained `.filter(user=...)` keeps rows owned by the caller,
`.order_by('-name')` sorts descending by name in the collation's byte order,
and `.distinct()` removes duplicate rows. -/

def assignedJoin (items : List RecipeAttr) (refsOf : Recipe → List Nat)
    (recipes : List Recipe) : List RecipeAttr :=
  items.flatMap (fun t => ((recipes.filter (fun r => t.id ∈ refsOf r)).map (fun _ => t)))

def nameDesc (a b : RecipeAttr) : Bool := lexLe b.name a.name

def attrQueryset (items : List RecipeAttr) (refsOf : Recipe → List Nat)
    (recipes : List Recipe) (u : Nat) (assigned_only : Option Str) : List RecipeAttr :=
  let qs := if paramTruthy assigned_only then assignedJoin items refsOf recipes else items
  ((sortByLe nameDesc (qs.filter (fun t => t.user = u)))).dedup

def tagQueryset (db : DB) (u : Nat) (p : Option Str) : List RecipeAttr :=
  attrQueryset db.tags (fun r => r.tags) db.recipes u p

def ingredientQueryset (db : DB) (u : Nat) (p : Option Str) : List RecipeAttr :=
  attrQueryset db.ingredients (fun r => r.ingredients) db.recipes u p

/-! ### Python `str.split` and `int()` (views.py, RecipeViewSet._params_to_ints) -/

def splitOnCh (sep : Nat) (s : Str) : List Str :=
  match s with
  | [] => [[]]
  | c :: rest =>
    if c = sep then [] :: splitOnCh sep rest
    else match splitOnCh sep rest with
      | [] => [[c]]
      | t :: ts => (c :: t) :: ts

def isSpaceCh (c : Nat) : Bool :=
  decide (c = 32 ∨ c = 9 ∨ c = 10 ∨ c = 13 ∨ c = 11 ∨ c = 12)

def isDigitCh (c : Nat) : Bool := decide (48 ≤ c ∧ c ≤ 57)

def pyStrip (s : Str) : Str :=
  ((s.dropWhile isSpaceCh).reverse.dropWhile isSpaceCh).reverse

/-- Digit run of a Python integer literal after the optional sign: digits
optionally grouped by single underscores (`1_0` parses, `1__0`, `_1`, `1_`
do not). -/
def parseDigitRun (acc : Nat) : Str → Option Nat
  | [] => some acc
  | c :: rest =>
    if isDigitCh c then parseDigitRun (acc * 10 + (c - 48)) rest
    else if c = 95 then
      match rest with
      | [] => none
      | d :: rest2 =>
        if isDigitCh d then parseDigitRun (acc * 10 + (d - 48)) rest2 else none
    else none

def parseDigits : Str → Option Nat
  | [] => none
  | c :: rest => if isDigitCh c then parseDigitRun (c - 48) rest else none

/-- Python `int(s)` on a decimal string: surrounding whitespace is stripped,
an optional sign precedes the digits; anything else raises ValueError (none). -/
def pyInt (s : Str) : Option Int :=
  match pyStrip s with
  | [] => none
  | c :: rest =>
    if c = 43 then (parseDigits rest).map (fun n => (n : Int))
    else if c = 45 then (parseDigits rest).map (fun n => -(n : Int))
    else (parseDigits (c :: rest)).map (fun n => (n : Int))

/-- `[int(x) for x in s.split(',')]`: the comprehension raises at the first
malformed token. -/
def parseAll : List Str → Option (List Int)
  | [] => some []
  | s :: rest =>
    match pyInt s, parseAll rest with
    | some i, some is => some (i :: is)
    | _, _ => none

def params_to_ints (s : Str) : Option (List Int) :=
  parseAll (splitOnCh 44 s)

/-! ### Recipe list queryset (views.py, RecipeViewSet.get_queryset)

`queryset.filter(tags__id__in=IDs)` joins recipes with their matching tag
rows: one result row per (recipe, matching tag) pair, with no `.distinct()`
applied. The same holds for the ingredients filter, and the two filters
compose. `none` models the uncaught ValueError from `int()`. -/

def joinRef (qs : List Recipe) (refsOf : Recipe → List Nat) (ids : List Int) :
    List Recipe :=
  qs.flatMap (fun r => (((refsOf r).filter (fun x => Int.ofNat x ∈ ids)).map (fun _ => r)))

def applyRefFilter (refsOf : Recipe → List Nat) (qs : List Recipe)
    (p : Option Str) : Option (List Recipe) :=
  match p with
  | none => some qs
  | some s =>
    if s.isEmpty then some qs
    else match params_to_ints s with
      | none => none
      | some ids => some (joinRef qs refsOf ids)

def idDesc (a b : Recipe) : Bool := b.id ≤ a.id

def recipeQueryset (db : DB) (u : Nat) (tp ip : Option Str) :
    Option (List Recipe) :=
  match applyRefFilter (fun r => r.tags) db.recipes tp with
  | none => none
  | some q1 =>
    match applyRefFilter (fun r => r.ingredients) q1 ip with
    | none => none
    | some q2 => some (sortByLe idDesc (q2.filter (fun r => r.user = u)))

/-- Outcome of an HTTP request as seen by the client. -/
inductive HttpOutcome where
  | ok (recipes : List Recipe)
  | clientError
  | serverError
deriving DecidableEq

/-- Recipe list endpoint response. The REST framework's exception handler
turns only its own APIException subclasses (and 404/permission errors) into
4xx responses; a ValueError escaping `get_queryset` is unhandled and surfaces
as a server error. -/
def recipeListResponse (db : DB) (u : Nat) (tp ip : Option Str) : HttpOutcome :=
  match recipeQueryset db u tp ip with
  | some l => .ok l
  | none => .serverError

/-! ### Creation (views.py, perform_create overrides)

Both viewsets override `perform_create` with `serializer.save(user=self.request.user)`.
In the REST framework, keyword arguments passed to `save` override any value of
the same field in the validated request body, so the owner stored on the new
record is the authenticated caller whatever owner the body carried. The request
bodies below therefore carry an optional `user` field that the handler ignores. -/

structure AttrBody where
  name : Str
  user : Option Nat
deriving DecidableEq

structure RecipeBody where
  title : Str
  time_minutes : Int
  price : Int
  link : Str
  ingredients : List Nat
  tags : List Nat
  user : Option Nat
deriving DecidableEq

def createTag (db : DB) (caller : Nat) (body : AttrBody) (newId : Nat) :
    DB × RecipeAttr :=
  let record : RecipeAttr := { id := newId, name := body.name, user := caller }
  ({ db with tags := db.tags ++ [record] }, record)

def createIngredient (db : DB) (caller : Nat) (body : AttrBody) (newId : Nat) :
    DB × RecipeAttr :=
  let record : RecipeAttr := { id := newId, name := body.name, user := caller }
  ({ db with ingredients := db.ingredients ++ [record] }, record)

def createRecipe (db : DB) (caller : Nat) (body : RecipeBody) (newId : Nat) :
    DB × Recipe :=
  let record : Recipe :=
    { id := newId, title := body.title, time_minutes := body.time_minutes,
      price := body.price, link := body.link, image := none,
      ingredients := body.ingredients, tags := body.tags, user := caller }
  ({ db with recipes := db.recipes ++ [record] }, record)

/-! ### Recipe update (PATCH / PUT)

Modelled from the spec: the recipe serializer module itself is not under
src/ (only its callers in views.py and its tests are), so the update
semantics of `RecipeSerializer` follow spec §4.3 — merge semantics on
partial update (only supplied fields change, unsupplied relational fields
are left untouched) and replace semantics on full replacement (omitted
relational fields are cleared to empty). -/

structure RecipePatchBody where
  title : Option Str
  time_minutes : Option Int
  price : Option Int
  link : Option Str
  ingredients : Option (List Nat)
  tags : Option (List Nat)
deriving DecidableEq

/-- Modelled from the spec: PATCH merge semantics of the recipe serializer
(module absent from src/), spec §4.3. -/
def patchRecipe (r : Recipe) (b : RecipePatchBody) : Recipe :=
  { r with
    title := b.title.getD r.title,
    time_minutes := b.time_minutes.getD r.time_minutes,
    price := b.price.getD r.price,
    link := b.link.getD r.link,
    ingredients := b.ingredients.getD r.ingredients,
    tags := b.tags.getD r.tags }

structure RecipePutBody where
  title : Str
  time_minutes : Int
  price : Int
  link : Option Str
  ingredients : Option (List Nat)
  tags : Option (List Nat)
deriving DecidableEq

/-- Modelled from the spec: PUT replace semantics of the recipe serializer
(module absent from src/), spec §4.3 — omitted optional/relational fields are
cleared. -/
def putRecipe (r : Recipe) (b : RecipePutBody) : Recipe :=
  { r with
    title := b.title,
    time_minutes := b.time_minutes,
    price := b.price,
    link := b.link.getD [],
    ingredients := b.ingredients.getD [],
    tags := b.tags.getD [] }

/-! ### Email normalization (django BaseUserManager.normalize_email, called
from core/models.py UserManager.create_user)

The library function strips surrounding whitespace, splits at the LAST `@`,
and lower-cases the domain part; a value without `@` is returned unchanged. -/

def lowerCh (c : Nat) : Nat := if 65 ≤ c ∧ c ≤ 90 then c + 32 else c

def atSign : Nat := 64

def notAt (c : Nat) : Bool := decide (c ≠ atSign)

/-- Splits at the last `@`: local part and domain part, none when absent. -/
def rsplitAtSign (s : Str) : Option (Str × Str) :=
  match s.reverse.dropWhile notAt with
  | [] => none
  | _ :: revLocal => some (revLocal.reverse, (s.reverse.takeWhile notAt).reverse)

def normalize_email (e : Str) : Str :=
  match rsplitAtSign (pyStrip e) with
  | none => e
  | some (l, d) => l ++ atSign :: d.map lowerCh

/-! ### User creation (user/serializers.py UserSerializer, core/models.py
UserManager.create_user)

The serializer declares `password` write-only with `min_length` 5 and builds
the user via `create_user`, which normalizes the email and stores only a
password hash. Validation failure rejects the request before any record is
written. -/

structure UserRec where
  email : Str
  name : Str
  password_hash : Str
  is_active : Bool
  is_staff : Bool
deriving DecidableEq

/-- Modelled from the spec: the framework's password hasher (set_password)
is not part of the repository; the spec only requires that the password is
never stored in plaintext, so the hash is modelled as an injective tagging
of the password. -/
def hashPassword (pw : Str) : Str := 112 :: 98 :: 107 :: pw

inductive CreateUserOutcome where
  | created (u : UserRec)
  | validationError
deriving DecidableEq

/-- Minimum password length declared in UserSerializer's extra kwargs. -/
def passwordMinLength : Nat := 5

def createUserEndpoint (store : List UserRec) (email pw name : Str) :
    List UserRec × CreateUserOutcome :=
  if pw.length < passwordMinLength then (store, .validationError)
  else if email.isEmpty then (store, .validationError)
  else if store.any (fun u => u.email = normalize_email email) then
    (store, .validationError)
  else
    let u : UserRec := { email := normalize_email email, name := name,
                         password_hash := hashPassword pw,
                         is_active := true, is_staff := false }
    (store ++ [u], .created u)

/-! ### Recipe image file path (core/models.py, create_recipe_image_file_path)

`file_name.split('.')[-1]` takes the text after the last dot (the whole name
when there is no dot); the stored name is a freshly drawn uuid4 token followed
by a dot and that extension, joined under the fixed prefix. The uuid token is
passed in as a parameter of the model; `os.path.join` with a prefix ending in
a slash and a generated name that cannot begin with a slash is concatenation. -/

def dotCh : Nat := 46

def lastExt (file_name : Str) : Str :=
  (splitOnCh dotCh file_name).getLastD []

def uploadsRecipePath : Str :=
  [117, 112, 108, 111, 97, 100, 115, 47, 114, 101, 99, 105, 112, 101, 47]

def create_recipe_image_file_path (uuidToken : Str) (file_name : Str) : Str :=
  uploadsRecipePath ++ uuidToken ++ dotCh :: lastExt file_name

/-! ### Specification predicates and concrete fixtures -/

/-- Characterization of a recipe list response: some result list is returned,
ordered by identifier descending, whose members are exactly the caller's
recipes satisfying `cond`. -/
def recipeListSpec (db : DB) (u : Nat) (tp ip : Option Str)
    (cond : Recipe → Prop) : Prop :=
  ∃ l, recipeQueryset db u tp ip = some l
    ∧ l.Pairwise (fun a b => idDesc a b = true)
    ∧ ∀ r, r ∈ l ↔ (r ∈ db.recipes ∧ r.user = u ∧ cond r)

/-- Characterization of an assigned-only attribute listing: exactly the
caller-owned records referenced by at least one recipe, without duplicates,
ordered by name descending. -/
def attrAssignedSpec (items : List RecipeAttr) (refsOf : Recipe → List Nat)
    (recipes : List Recipe) (res : List RecipeAttr) (u : Nat) : Prop :=
  (∀ t, t ∈ res ↔ (t ∈ items ∧ t.user = u ∧ ∃ r ∈ recipes, t.id ∈ refsOf r))
    ∧ res.Nodup ∧ res.Pairwise (fun a b => nameDesc a b = true)

/-- Membership characterization of an attribute listing for an arbitrary
assigned_only parameter: the recipe-reference restriction applies exactly
when the parameter is truthy. -/
def attrListCharacterization (items : List RecipeAttr) (refsOf : Recipe → List Nat)
    (recipes : List Recipe) (u : Nat) (p : Option Str) : Prop :=
  ∀ t, t ∈ attrQueryset items refsOf recipes u p ↔
    (t ∈ items ∧ t.user = u ∧
      (paramTruthy p = true → ∃ r ∈ recipes, t.id ∈ refsOf r))

/-- Fixture: two users; user 1 owns recipes R1 (tag 1, ingredient 1),
R2 (tag 2) and R3 (no tags); user 2 owns R4 (tag 3). -/
def dbW : DB :=
  { tags := [⟨1, [84, 49], 1⟩, ⟨2, [84, 50], 1⟩, ⟨3, [84, 51], 2⟩],
    ingredients := [⟨1, [73, 49], 1⟩, ⟨2, [73, 50], 1⟩],
    recipes :=
      [⟨1, [82, 49], 10, 500, [], none, [1], [1], 1⟩,
       ⟨2, [82, 50], 20, 600, [], none, [], [2], 1⟩,
       ⟨3, [82, 51], 30, 700, [], none, [], [], 1⟩,
       ⟨4, [82, 52], 40, 800, [], none, [], [3], 2⟩] }

/-- Fixture: user 2 owns tag 1, and the only recipe referencing that tag
belongs to user 1. -/
def dbCross : DB :=
  { tags := [⟨1, [65], 2⟩],
    ingredients := [],
    recipes := [⟨10, [82], 5, 100, [], none, [], [1], 1⟩] }

def dbEmpty : DB := { tags := [], ingredients := [], recipes := [] }

/-! ### Query-layer lemmas -/

/-! ### Sorting and comparison lemmas -/

theorem mem_insertLe {α : Type} (le : α → α → Bool) (a x : α) (l : List α) :
    x ∈ insertLe le a l ↔ x = a ∨ x ∈ l := by
  induction l with
  | nil => simp [insertLe]
  | cons b bs ih =>
    by_cases h : le a b = true
    · simp [insertLe, h]
    · simp only [insertLe, if_neg h, List.mem_cons, ih]
      tauto

theorem mem_sortByLe {α : Type} (le : α → α → Bool) (x : α) (l : List α) :
    x ∈ sortByLe le l ↔ x ∈ l := by
  induction l with
  | nil => simp [sortByLe]
  | cons a as ih => simp [sortByLe, mem_insertLe, ih]

theorem pairwise_insertLe {α : Type} (le : α → α → Bool)
    (htot : ∀ a b, le a b = true ∨ le b a = true)
    (htrans : ∀ a b c, le a b = true → le b c = true → le a c = true)
    (a : α) (l : List α) (h : l.Pairwise (fun x y => le x y = true)) :
    (insertLe le a l).Pairwise (fun x y => le x y = true) := by
  induction l with
  | nil => simp [insertLe]
  | cons b bs ih =>
    rcases List.pairwise_cons.mp h with ⟨hb, hbs⟩
    by_cases hab : le a b = true
    · rw [insertLe, if_pos hab]
      refine List.pairwise_cons.mpr ⟨?_, h⟩
      intro x hx
      rcases List.mem_cons.mp hx with rfl | hx'
      · exact hab
      · exact htrans a b x hab (hb x hx')
    · rw [insertLe, if_neg hab]
      refine List.pairwise_cons.mpr ⟨?_, ih hbs⟩
      intro x hx
      rcases (mem_insertLe le a x bs).mp hx with heq | hx'
      · rw [heq]
        rcases htot a b with h' | h'
        · exact absurd h' hab
        · exact h'
      · exact hb x hx'

theorem pairwise_sortByLe {α : Type} (le : α → α → Bool)
    (htot : ∀ a b, le a b = true ∨ le b a = true)
    (htrans : ∀ a b c, le a b = true → le b c = true → le a c = true)
    (l : List α) :
    (sortByLe le l).Pairwise (fun x y => le x y = true) := by
  induction l with
  | nil => simp [sortByLe]
  | cons a as ih => exact pairwise_insertLe le htot htrans a (sortByLe le as) ih


theorem lexLe_total : ∀ s t : Str, lexLe s t = true ∨ lexLe t s = true := by
  intro s
  induction s with
  | nil => intro t; left; rfl
  | cons a as ih =>
    intro t
    cases t with
    | nil => right; rfl
    | cons b bs =>
      rcases Nat.lt_trichotomy a b with h | h | h
      · left; simp [lexLe, h]
      · subst h
        rcases ih bs with h' | h'
        · left; simp [lexLe, h']
        · right; simp [lexLe, h']
      · right; simp [lexLe, h]

theorem lexLe_trans :
    ∀ s t u : Str, lexLe s t = true → lexLe t u = true → lexLe s u = true := by
  intro s
  induction s with
  | nil => intro t u _ _; rfl
  | cons a as ih =>
    intro t u hst htu
    cases t with
    | nil => simp [lexLe] at hst
    | cons b bs =>
      cases u with
      | nil => simp [lexLe] at htu
      | cons c cs =>
        simp only [lexLe, Bool.or_eq_true, Bool.and_eq_true, decide_eq_true_eq] at hst htu ⊢
        rcases hst with h1 | ⟨h1, h1'⟩
        · rcases htu with h2 | ⟨h2, _⟩
          · exact Or.inl (Nat.lt_trans h1 h2)
          · exact Or.inl (h2 ▸ h1)
        · rcases htu with h2 | ⟨h2, h2'⟩
          · exact Or.inl (h1 ▸ h2)
          · exact Or.inr ⟨h1.trans h2, ih bs cs h1' h2'⟩



theorem nameDesc_total (a b : RecipeAttr) :
    nameDesc a b = true ∨ nameDesc b a = true :=
  lexLe_total b.name a.name

theorem nameDesc_trans (a b c : RecipeAttr) :
    nameDesc a b = true → nameDesc b c = true → nameDesc a c = true :=
  fun h1 h2 => lexLe_trans c.name b.name a.name h2 h1

theorem idDesc_total (a b : Recipe) : idDesc a b = true ∨ idDesc b a = true := by
  simp only [idDesc, decide_eq_true_eq]
  omega

theorem idDesc_trans (a b c : Recipe) :
    idDesc a b = true → idDesc b c = true → idDesc a c = true := by
  simp only [idDesc, decide_eq_true_eq]
  omega

theorem mem_assignedJoin (items : List RecipeAttr) (refsOf : Recipe → List Nat)
    (recipes : List Recipe) (t : RecipeAttr) :
    t ∈ assignedJoin items refsOf recipes ↔
      t ∈ items ∧ ∃ r ∈ recipes, t.id ∈ refsOf r := by
  simp only [assignedJoin, List.mem_flatMap, List.mem_map, List.mem_filter,
    decide_eq_true_eq]
  constructor
  · rintro ⟨a, ha, r, ⟨hr, hid⟩, rfl⟩
    exact ⟨ha, r, hr, hid⟩
  · rintro ⟨ht, r, hr, hid⟩
    exact ⟨t, ht, r, ⟨hr, hid⟩, rfl⟩

theorem mem_attrQueryset (items : List RecipeAttr) (refsOf : Recipe → List Nat)
    (recipes : List Recipe) (u : Nat) (p : Option Str) (t : RecipeAttr) :
    t ∈ attrQueryset items refsOf recipes u p ↔
      (t ∈ items ∧ t.user = u ∧
        (paramTruthy p = true → ∃ r ∈ recipes, t.id ∈ refsOf r)) := by
  by_cases hp : paramTruthy p = true
  · simp only [attrQueryset, hp, if_true, List.mem_dedup, mem_sortByLe,
      List.mem_filter, mem_assignedJoin, decide_eq_true_eq, true_implies]
    tauto
  · simp only [attrQueryset, hp, if_false, Bool.false_eq_true, false_implies,
      List.mem_dedup, mem_sortByLe, List.mem_filter, decide_eq_true_eq,
      and_true]

theorem nodup_attrQueryset (items : List RecipeAttr) (refsOf : Recipe → List Nat)
    (recipes : List Recipe) (u : Nat) (p : Option Str) :
    (attrQueryset items refsOf recipes u p).Nodup :=
  List.nodup_dedup _

theorem sorted_attrQueryset (items : List RecipeAttr) (refsOf : Recipe → List Nat)
    (recipes : List Recipe) (u : Nat) (p : Option Str) :
    (attrQueryset items refsOf recipes u p).Pairwise (fun a b => nameDesc a b = true) :=
  List.Pairwise.sublist (List.dedup_sublist _)
    (pairwise_sortByLe nameDesc nameDesc_total nameDesc_trans _)

theorem mem_joinRef (qs : List Recipe) (refsOf : Recipe → List Nat)
    (ids : List Int) (r : Recipe) :
    r ∈ joinRef qs refsOf ids ↔
      r ∈ qs ∧ ∃ x : Nat, x ∈ refsOf r ∧ Int.ofNat x ∈ ids := by
  simp only [joinRef, List.mem_flatMap, List.mem_map, List.mem_filter,
    decide_eq_true_eq]
  constructor
  · rintro ⟨a, ha, x, ⟨hx, hid⟩, rfl⟩
    exact ⟨ha, x, hx, hid⟩
  · rintro ⟨hq, x, hx, hid⟩
    exact ⟨r, hq, x, ⟨hx, hid⟩, rfl⟩

theorem applyRefFilter_omitted (refsOf : Recipe → List Nat) (qs : List Recipe) :
    applyRefFilter refsOf qs none = some qs := rfl

theorem applyRefFilter_parsed (refsOf : Recipe → List Nat) (qs : List Recipe)
    (s : Str) (ids : List Int) (hs : s ≠ []) (hp : params_to_ints s = some ids) :
    applyRefFilter refsOf qs (some s) = some (joinRef qs refsOf ids) := by
  cases s with
  | nil => exact absurd rfl hs
  | cons c cs => simp [applyRefFilter, hp]

theorem applyRefFilter_malformed (refsOf : Recipe → List Nat) (qs : List Recipe)
    (s : Str) (hs : s ≠ []) (hp : params_to_ints s = none) :
    applyRefFilter refsOf qs (some s) = none := by
  cases s with
  | nil => exact absurd rfl hs
  | cons c cs => simp [applyRefFilter, hp]

theorem recipeQueryset_user (db : DB) (u : Nat) (tp ip : Option Str)
    (l : List Recipe) (h : recipeQueryset db u tp ip = some l) :
    ∀ r ∈ l, r.user = u := by
  unfold recipeQueryset at h
  cases h1 : applyRefFilter (fun r => r.tags) db.recipes tp with
  | none =>
    simp only [h1] at h
    exact Option.noConfusion h
  | some q1 =>
    simp only [h1] at h
    cases h2 : applyRefFilter (fun r => r.ingredients) q1 ip with
    | none =>
      simp only [h2] at h
      exact Option.noConfusion h
    | some q2 =>
      simp only [h2, Option.some.injEq] at h
      subst h
      intro r hr
      have hm := (mem_sortByLe idDesc r _).mp hr
      exact of_decide_eq_true (List.mem_filter.mp hm).2

/-! ### Claims -/

/-- C1: for every pair of distinct users U1 ≠ U2, no record owned by U1
appears in U2's tag, ingredient or recipe list responses: every returned
record is owned by the requesting user, whatever assigned_only / tag-id /
ingredient-id filter parameters were supplied. -/
theorem claim_C1_owner_scoping (db : DB) (u1 u2 : Nat) (p tp ip : Option Str)
    (l : List Recipe) (hne : u1 ≠ u2)
    (hl : recipeQueryset db u2 tp ip = some l) :
    (∀ t ∈ tagQueryset db u2 p, t.user = u2 ∧ t.user ≠ u1)
    ∧ (∀ t ∈ ingredientQueryset db u2 p, t.user = u2 ∧ t.user ≠ u1)
    ∧ (∀ r ∈ l, r.user = u2 ∧ r.user ≠ u1) := by
  refine ⟨?_, ?_, ?_⟩
  · intro t ht
    have h := (mem_attrQueryset _ _ _ _ _ _).mp ht
    exact ⟨h.2.1, by rw [h.2.1]; exact Ne.symm hne⟩
  · intro t ht
    have h := (mem_attrQueryset _ _ _ _ _ _).mp ht
    exact ⟨h.2.1, by rw [h.2.1]; exact Ne.symm hne⟩
  · intro r hr
    have hu := recipeQueryset_user db u2 tp ip l hl r hr
    exact ⟨hu, by rw [hu]; exact Ne.symm hne⟩

/-- Witness for C1 at the concrete fixture: caller 2 lists tags (assigned
filter on), ingredients, and recipes filtered by tags=3. -/
theorem claim_C1_owner_scoping_witness :
    (1 : Nat) ≠ 2
    ∧ recipeQueryset dbW 2 (some [51]) none =
        some [⟨4, [82, 52], 40, 800, [], none, [], [3], 2⟩]
    ∧ ((∀ t ∈ tagQueryset dbW 2 (some [116]), t.user = 2 ∧ t.user ≠ 1)
      ∧ (∀ t ∈ ingredientQueryset dbW 2 (some [116]), t.user = 2 ∧ t.user ≠ 1)
      ∧ (∀ r ∈ [(⟨4, [82, 52], 40, 800, [], none, [], [3], 2⟩ : Recipe)],
          r.user = 2 ∧ r.user ≠ 1)) :=
  ⟨by decide, by decide,
    claim_C1_owner_scoping dbW 1 2 (some [116]) (some [51]) none
      [⟨4, [82, 52], 40, 800, [], none, [], [3], 2⟩] (by decide) (by decide)⟩

/-- C2 counterexample: in `dbCross`, user 2's assigned_only tag listing
returns tag 1 although no recipe of user 2 references it — the code only
requires a referencing recipe of some user, not of the caller. -/
theorem claim_C2_counterexample :
    tagQueryset dbCross 2 (some [116, 114, 117, 101]) = [⟨1, [65], 2⟩]
    ∧ (∀ r ∈ dbCross.recipes, ¬(r.user = 2 ∧ 1 ∈ r.tags)) := by
  decide

/-- C2 (amended): with assigned_only supplied non-empty, the tag and
ingredient listings return exactly the caller-owned records referenced by at
least one recipe of any user, without duplicates, ordered by name descending
(byte order). -/
theorem claim_C2_assigned_only (db : DB) (u : Nat) (s : Str) (hs : s ≠ []) :
    attrAssignedSpec db.tags (fun r => r.tags) db.recipes
      (tagQueryset db u (some s)) u
    ∧ attrAssignedSpec db.ingredients (fun r => r.ingredients) db.recipes
      (ingredientQueryset db u (some s)) u := by
  have hps : paramTruthy (some s) = true := by
    cases s with
    | nil => exact absurd rfl hs
    | cons c cs => rfl
  constructor
  · refine ⟨?_, nodup_attrQueryset _ _ _ _ _, sorted_attrQueryset _ _ _ _ _⟩
    intro t
    rw [tagQueryset, mem_attrQueryset]
    simp [hps]
  · refine ⟨?_, nodup_attrQueryset _ _ _ _ _, sorted_attrQueryset _ _ _ _ _⟩
    intro t
    rw [ingredientQueryset, mem_attrQueryset]
    simp [hps]

/-- Witness for the amended C2 at the concrete fixture. -/
theorem claim_C2_assigned_only_witness :
    ([116] : Str) ≠ []
    ∧ (attrAssignedSpec dbW.tags (fun r => r.tags) dbW.recipes
        (tagQueryset dbW 1 (some [116])) 1
      ∧ attrAssignedSpec dbW.ingredients (fun r => r.ingredients) dbW.recipes
        (ingredientQueryset dbW 1 (some [116])) 1) :=
  ⟨by decide, claim_C2_assigned_only dbW 1 [116] (by decide)⟩

theorem recipeListSpec_of (db : DB) (u : Nat) (tp ip : Option Str)
    (qa qb : List Recipe) (cond : Recipe → Prop)
    (ha : applyRefFilter (fun r => r.tags) db.recipes tp = some qa)
    (hb : applyRefFilter (fun r => r.ingredients) qa ip = some qb)
    (hmem : ∀ r, r ∈ qb ↔ (r ∈ db.recipes ∧ cond r)) :
    recipeListSpec db u tp ip cond := by
  refine ⟨sortByLe idDesc (qb.filter (fun r => r.user = u)), ?_, ?_, ?_⟩
  · unfold recipeQueryset
    simp only [ha, hb]
  · exact pairwise_sortByLe idDesc idDesc_total idDesc_trans _
  · intro r
    rw [mem_sortByLe, List.mem_filter, hmem r]
    simp only [decide_eq_true_eq]
    tauto

/-- C3: recipe listing with optional comma-separated tag-id and
ingredient-id parameters. A supplied (non-empty, well-formed) tags parameter
restricts to recipes referencing at least one of the given tag ids; the
ingredients parameter does the same independently and conjunctively; an
omitted parameter imposes no restriction; the result is always restricted to
the caller's own recipes and ordered by identifier descending. -/
theorem claim_C3_recipe_filters (db : DB) (u : Nat) (s1 s2 : Str)
    (ids1 ids2 : List Int) (h1 : s1 ≠ []) (h2 : s2 ≠ [])
    (hp1 : params_to_ints s1 = some ids1) (hp2 : params_to_ints s2 = some ids2) :
    recipeListSpec db u (some s1) (some s2)
      (fun r => (∃ x : Nat, x ∈ r.tags ∧ Int.ofNat x ∈ ids1)
        ∧ (∃ x : Nat, x ∈ r.ingredients ∧ Int.ofNat x ∈ ids2))
    ∧ recipeListSpec db u (some s1) none
      (fun r => ∃ x : Nat, x ∈ r.tags ∧ Int.ofNat x ∈ ids1)
    ∧ recipeListSpec db u none (some s2)
      (fun r => ∃ x : Nat, x ∈ r.ingredients ∧ Int.ofNat x ∈ ids2)
    ∧ recipeListSpec db u none none (fun _ => True) := by
  refine ⟨?_, ?_, ?_, ?_⟩
  · refine recipeListSpec_of db u _ _ _ _ _
      (applyRefFilter_parsed _ _ _ _ h1 hp1)
      (applyRefFilter_parsed _ _ _ _ h2 hp2) ?_
    intro r
    simp only [mem_joinRef]
    tauto
  · refine recipeListSpec_of db u _ _ _ _ _
      (applyRefFilter_parsed _ _ _ _ h1 hp1)
      (applyRefFilter_omitted _ _) ?_
    intro r
    simp only [mem_joinRef]
  · refine recipeListSpec_of db u _ _ _ _ _
      (applyRefFilter_omitted _ _)
      (applyRefFilter_parsed _ _ _ _ h2 hp2) ?_
    intro r
    simp only [mem_joinRef]
  · refine recipeListSpec_of db u _ _ _ _ _
      (applyRefFilter_omitted _ _) (applyRefFilter_omitted _ _) ?_
    intro r
    simp

/-- Witness for C3 at the concrete fixture: user 1, tags=1,2 and
ingredients=1; in particular tags=1,2 yields the union of recipes having
either tag. -/
theorem claim_C3_recipe_filters_witness :
    ([49, 44, 50] : Str) ≠ [] ∧ ([49] : Str) ≠ []
    ∧ params_to_ints [49, 44, 50] = some [1, 2]
    ∧ params_to_ints [49] = some [1]
    ∧ (recipeListSpec dbW 1 (some [49, 44, 50]) (some [49])
        (fun r => (∃ x : Nat, x ∈ r.tags ∧ Int.ofNat x ∈ [(1 : Int), 2])
          ∧ (∃ x : Nat, x ∈ r.ingredients ∧ Int.ofNat x ∈ [(1 : Int)]))
      ∧ recipeListSpec dbW 1 (some [49, 44, 50]) none
        (fun r => ∃ x : Nat, x ∈ r.tags ∧ Int.ofNat x ∈ [(1 : Int), 2])
      ∧ recipeListSpec dbW 1 none (some [49])
        (fun r => ∃ x : Nat, x ∈ r.ingredients ∧ Int.ofNat x ∈ [(1 : Int)])
      ∧ recipeListSpec dbW 1 none none (fun _ => True)) :=
  ⟨by decide, by decide, by decide, by decide,
    claim_C3_recipe_filters dbW 1 [49, 44, 50] [49] [1, 2] [1]
      (by decide) (by decide) (by decide) (by decide)⟩

/-- C4 counterexample: a tags parameter with the non-numeric token `x`
(string "1,x") makes the recipe list request fail with a server error —
the uncaught ValueError — not with a client (400-class) validation error,
contradicting the claim. -/
theorem claim_C4_counterexample :
    recipeListResponse dbEmpty 1 (some [49, 44, 120]) none = HttpOutcome.serverError
    ∧ recipeListResponse dbEmpty 1 (some [49, 44, 120]) none ≠ HttpOutcome.clientError := by
  decide

/-- C4 (amended): whenever the tags (or ingredients) parameter is non-empty
and contains a token that does not parse as an integer, the operation fails
with an unhandled ValueError surfacing as a server error, not a client input
error. -/
theorem claim_C4_malformed_ids (db : DB) (u : Nat) (s : Str) (ip : Option Str)
    (hs : s ≠ []) (hbad : params_to_ints s = none) :
    recipeListResponse db u (some s) ip = HttpOutcome.serverError
    ∧ recipeListResponse db u none (some s) = HttpOutcome.serverError := by
  constructor
  · unfold recipeListResponse recipeQueryset
    simp only [applyRefFilter_malformed _ _ _ hs hbad]
  · unfold recipeListResponse recipeQueryset
    simp only [applyRefFilter_omitted,
      applyRefFilter_malformed _ _ _ hs hbad]

/-- Witness for the amended C4: the malformed token is the empty token after
a trailing comma (string "1,"). -/
theorem claim_C4_malformed_ids_witness :
    ([49, 44] : Str) ≠ [] ∧ params_to_ints [49, 44] = none
    ∧ recipeListResponse dbW 1 (some [49, 44]) none = HttpOutcome.serverError
    ∧ recipeListResponse dbW 1 none (some [49, 44]) = HttpOutcome.serverError :=
  ⟨by decide, by decide,
    (claim_C4_malformed_ids dbW 1 [49, 44] none (by decide) (by decide)).1,
    (claim_C4_malformed_ids dbW 1 [49, 44] none (by decide) (by decide)).2⟩

/-- C10: the assigned-only restriction on tag/ingredient listing applies if
and only if the assigned_only parameter is present with a non-empty string
value; any non-empty value, including "false" and "0", activates it, while an
absent parameter or an empty string leaves it inactive. -/
theorem claim_C10_assigned_only_truthiness :
    (∀ (db : DB) (u : Nat) (p : Option Str),
      attrListCharacterization db.tags (fun r => r.tags) db.recipes u p
      ∧ attrListCharacterization db.ingredients (fun r => r.ingredients)
          db.recipes u p)
    ∧ paramTruthy none = false
    ∧ paramTruthy (some []) = false
    ∧ paramTruthy (some [102, 97, 108, 115, 101]) = true
    ∧ paramTruthy (some [48]) = true :=
  ⟨fun db u p =>
    ⟨fun t => mem_attrQueryset db.tags (fun r => r.tags) db.recipes u p t,
     fun t => mem_attrQueryset db.ingredients (fun r => r.ingredients)
        db.recipes u p t⟩,
   rfl, rfl, rfl, rfl⟩

/-- C5: every successful create of a Tag, Ingredient or Recipe stores the
authenticated caller as the record's owner, whatever owner value the request
body carried (the body's `user` field is never consulted). -/
theorem claim_C5_creation_owner :
    ∀ (db : DB) (caller newId : Nat) (ab : AttrBody) (rb : RecipeBody),
      (createTag db caller ab newId).2.user = caller
      ∧ (createIngredient db caller ab newId).2.user = caller
      ∧ (createRecipe db caller rb newId).2.user = caller :=
  fun _ _ _ _ _ => ⟨rfl, rfl, rfl⟩

/-- C6: a PATCH supplying only a non-empty tags list changes exactly the
tags association, leaving title, price, duration and every other field
unchanged; a PUT omitting the tags field leaves the recipe with zero tags. -/
theorem claim_C6_update_semantics (r : Recipe) (ts : List Nat)
    (pb : RecipePutBody) (hts : ts ≠ []) (hpb : pb.tags = none) :
    (patchRecipe r ⟨none, none, none, none, none, some ts⟩).tags = ts
    ∧ (patchRecipe r ⟨none, none, none, none, none, some ts⟩).title = r.title
    ∧ (patchRecipe r ⟨none, none, none, none, none, some ts⟩).price = r.price
    ∧ (patchRecipe r ⟨none, none, none, none, none, some ts⟩).time_minutes
        = r.time_minutes
    ∧ (patchRecipe r ⟨none, none, none, none, none, some ts⟩).link = r.link
    ∧ (patchRecipe r ⟨none, none, none, none, none, some ts⟩).ingredients
        = r.ingredients
    ∧ (patchRecipe r ⟨none, none, none, none, none, some ts⟩).image = r.image
    ∧ (patchRecipe r ⟨none, none, none, none, none, some ts⟩).id = r.id
    ∧ (patchRecipe r ⟨none, none, none, none, none, some ts⟩).user = r.user
    ∧ (putRecipe r pb).tags = [] := by
  refine ⟨rfl, rfl, rfl, rfl, rfl, rfl, rfl, rfl, rfl, ?_⟩
  simp [putRecipe, hpb]

/-- Witness for C6 at a concrete recipe and bodies. -/
theorem claim_C6_update_semantics_witness :
    ([5] : List Nat) ≠ []
    ∧ (⟨[84], 25, 500, none, none, none⟩ : RecipePutBody).tags = none
    ∧ (patchRecipe ⟨1, [82], 10, 300, [], none, [2], [4], 1⟩
        ⟨none, none, none, none, none, some [5]⟩).tags = [5]
    ∧ (putRecipe ⟨1, [82], 10, 300, [], none, [2], [4], 1⟩
        ⟨[84], 25, 500, none, none, none⟩).tags = [] :=
  ⟨by decide, by decide,
    (claim_C6_update_semantics ⟨1, [82], 10, 300, [], none, [2], [4], 1⟩ [5]
      ⟨[84], 25, 500, none, none, none⟩ (by decide) (by decide)).1,
    (claim_C6_update_semantics ⟨1, [82], 10, 300, [], none, [2], [4], 1⟩ [5]
      ⟨[84], 25, 500, none, none, none⟩ (by decide) (by decide)).2.2.2.2.2.2.2.2.2⟩

/-- C7: a user-creation request whose password is shorter than 5 characters
is rejected with a validation error and leaves the user store unchanged. -/
theorem claim_C7_short_password (store : List UserRec) (email pw name : Str)
    (h : pw.length < passwordMinLength) :
    createUserEndpoint store email pw name = (store, .validationError) := by
  simp [createUserEndpoint, h]

/-- Witness for C7: password "1234" (length 4) is rejected on a store with
one existing user, and the store is returned unchanged. -/
theorem claim_C7_short_password_witness :
    ([49, 50, 51, 52] : Str).length < passwordMinLength
    ∧ createUserEndpoint [⟨[97, 64, 98], [110], [104], true, false⟩]
        [99, 64, 100] [49, 50, 51, 52] [110] =
      ([⟨[97, 64, 98], [110], [104], true, false⟩], .validationError) :=
  ⟨by decide,
    claim_C7_short_password [⟨[97, 64, 98], [110], [104], true, false⟩]
      [99, 64, 100] [49, 50, 51, 52] [110] (by decide)⟩

theorem splitOnCh_ne_nil (sep : Nat) : ∀ s : Str, splitOnCh sep s ≠ [] := by
  intro s
  induction s with
  | nil => simp [splitOnCh]
  | cons c rest ih =>
    rw [splitOnCh]
    by_cases hc : c = sep
    · simp [hc]
    · rw [if_neg hc]
      cases h : splitOnCh sep rest with
      | nil => simp
      | cons t ts => simp

theorem splitOnCh_two_of_mem (sep : Nat) :
    ∀ s : Str, sep ∈ s → 2 ≤ (splitOnCh sep s).length := by
  intro s
  induction s with
  | nil => intro h; simp at h
  | cons c rest ih =>
    intro hmem
    rw [splitOnCh]
    by_cases hc : c = sep
    · rw [if_pos hc]
      have h1 : 1 ≤ (splitOnCh sep rest).length :=
        List.length_pos.mpr (splitOnCh_ne_nil sep rest)
      simp only [List.length_cons]
      omega
    · rw [if_neg hc]
      have hrest : sep ∈ rest := by
        rcases List.mem_cons.mp hmem with h | h
        · exact absurd h.symm hc
        · exact h
      have h2 := ih hrest
      cases h : splitOnCh sep rest with
      | nil => exact absurd h (splitOnCh_ne_nil sep rest)
      | cons t ts =>
        rw [h] at h2
        simp only [List.length_cons] at h2 ⊢
        omega

theorem splitOnCh_no_sep (sep : Nat) :
    ∀ s : Str, sep ∉ s → splitOnCh sep s = [s] := by
  intro s
  induction s with
  | nil => intro _; rfl
  | cons c rest ih =>
    intro h
    have hc : ¬ c = sep := fun he => h (List.mem_cons.mpr (Or.inl he.symm))
    have hr : sep ∉ rest := fun hm => h (List.mem_cons_of_mem c hm)
    rw [splitOnCh, if_neg hc, ih hr]

theorem getLastD_irrelevant {α : Type} (l : List α) (a b : α) (h : l ≠ []) :
    l.getLastD a = l.getLastD b := by
  cases l with
  | nil => exact absurd rfl h
  | cons x xs => rw [List.getLastD_cons, List.getLastD_cons]

/-- A file name containing a dot decomposes as a prefix, the last dot, and
`lastExt`, which itself contains no dot. -/
theorem lastExt_decomp :
    ∀ f : Str, dotCh ∈ f →
      (∃ pre : Str, f = pre ++ dotCh :: lastExt f)
      ∧ (∀ c ∈ lastExt f, c ≠ dotCh) := by
  intro f
  induction f with
  | nil => intro h; simp at h
  | cons c rest ih =>
    intro hmem
    by_cases hc : c = dotCh
    · subst hc
      have hlast : lastExt (dotCh :: rest) = lastExt rest := by
        unfold lastExt
        rw [splitOnCh, if_pos rfl, List.getLastD_cons]
      rw [hlast]
      by_cases hr : dotCh ∈ rest
      · obtain ⟨⟨pre, hpre⟩, hnd⟩ := ih hr
        refine ⟨⟨dotCh :: pre, ?_⟩, hnd⟩
        nth_rewrite 1 [hpre]
        rfl
      · have hle : lastExt rest = rest := by
          unfold lastExt
          rw [splitOnCh_no_sep dotCh rest hr]
          rfl
        refine ⟨⟨[], by rw [hle]; simp⟩, ?_⟩
        intro x hx
        rw [hle] at hx
        exact fun he => hr (he ▸ hx)
    · have hr : dotCh ∈ rest := by
        rcases List.mem_cons.mp hmem with h | h
        · exact absurd h.symm hc
        · exact h
      have h2 := splitOnCh_two_of_mem dotCh rest hr
      cases h : splitOnCh dotCh rest with
      | nil => exact absurd h (splitOnCh_ne_nil dotCh rest)
      | cons t ts =>
        have hts : ts ≠ [] := by
          rw [h] at h2
          simp only [List.length_cons] at h2
          intro he
          rw [he] at h2
          simp at h2
        have hcneq : ¬ c = dotCh := hc
        have hlast : lastExt (c :: rest) = lastExt rest := by
          unfold lastExt
          rw [splitOnCh, if_neg hcneq, h]
          show ((c :: t) :: ts).getLastD [] = (t :: ts).getLastD []
          rw [List.getLastD_cons, List.getLastD_cons]
          exact getLastD_irrelevant ts (c :: t) t hts
        rw [hlast]
        obtain ⟨⟨pre, hpre⟩, hnd⟩ := ih hr
        refine ⟨⟨c :: pre, ?_⟩, hnd⟩
        nth_rewrite 1 [hpre]
        rfl

/-- C9: the generated storage path is the fixed prefix "uploads/recipe/"
followed by the fresh token, a dot, and the extension of the client file
name F (the text after the last dot of F); the stem of the stored name is
the token alone, independent of F, so two uploads of the same client file
name with distinct tokens obtain distinct storage paths. -/
theorem claim_C9_image_file_path (t1 t2 f : Str) (hdot : dotCh ∈ f)
    (hne : t1 ≠ t2) :
    create_recipe_image_file_path t1 f
      = uploadsRecipePath ++ t1 ++ dotCh :: lastExt f
    ∧ (∃ pre : Str, f = pre ++ dotCh :: lastExt f ∧ dotCh ∉ lastExt f)
    ∧ create_recipe_image_file_path t1 f ≠ create_recipe_image_file_path t2 f := by
  refine ⟨rfl, ?_, ?_⟩
  · obtain ⟨⟨pre, hpre⟩, hnd⟩ := lastExt_decomp f hdot
    exact ⟨pre, hpre, fun hmem => hnd dotCh hmem rfl⟩
  · intro h
    unfold create_recipe_image_file_path at h
    exact hne (List.append_cancel_left (List.append_cancel_right h))

/-- Witness for C9: file name "p.jpg" with two distinct fresh tokens. -/
theorem claim_C9_image_file_path_witness :
    dotCh ∈ ([112, 46, 106, 112, 103] : Str)
    ∧ ([97] : Str) ≠ [98]
    ∧ (create_recipe_image_file_path [97] [112, 46, 106, 112, 103]
        = uploadsRecipePath ++ [97] ++ dotCh :: lastExt [112, 46, 106, 112, 103]
      ∧ (∃ pre : Str,
          ([112, 46, 106, 112, 103] : Str)
            = pre ++ dotCh :: lastExt [112, 46, 106, 112, 103]
          ∧ dotCh ∉ lastExt [112, 46, 106, 112, 103])
      ∧ create_recipe_image_file_path [97] [112, 46, 106, 112, 103]
          ≠ create_recipe_image_file_path [98] [112, 46, 106, 112, 103]) :=
  ⟨by decide, by decide,
    claim_C9_image_file_path [97] [98] [112, 46, 106, 112, 103]
      (by decide) (by decide)⟩

/-! ### Lemmas for email normalization (C8) -/

theorem lowerCh_idem (c : Nat) : lowerCh (lowerCh c) = lowerCh c := by
  unfold lowerCh
  split_ifs <;> omega

theorem isSpaceCh_lowerCh (c : Nat) : isSpaceCh (lowerCh c) = isSpaceCh c := by
  unfold isSpaceCh lowerCh
  split_ifs with h
  · rw [decide_eq_decide]
    omega
  · rfl

theorem notAt_lowerCh (c : Nat) : notAt (lowerCh c) = notAt c := by
  unfold notAt lowerCh atSign
  split_ifs with h
  · rw [decide_eq_decide]
    omega
  · rfl

theorem dropWhile_cons_false {α : Type} (p : α → Bool) (b : α) (ys : List α)
    (hb : p b = false) : (b :: ys).dropWhile p = b :: ys := by
  simp [List.dropWhile_cons, hb]

theorem head_false_of_dropWhile_self {α : Type} (p : α → Bool) (a : α)
    (xs : List α) (h : (a :: xs).dropWhile p = a :: xs) : p a = false := by
  cases hpa : p a with
  | false => rfl
  | true =>
    rw [List.dropWhile_cons, if_pos hpa] at h
    have hlen := congrArg List.length h
    have hle := (List.dropWhile_suffix (l := xs) p).sublist.length_le
    simp only [List.length_cons] at hlen
    omega

theorem dropWhile_head_false {α : Type} (p : α → Bool) :
    ∀ (l : List α) (x : α) (xs : List α), l.dropWhile p = x :: xs → p x = false := by
  intro l
  induction l with
  | nil => intro x xs h; simp at h
  | cons a as ih =>
    intro x xs h
    rw [List.dropWhile_cons] at h
    by_cases ha : p a = true
    · rw [if_pos ha] at h
      exact ih x xs h
    · rw [if_neg ha] at h
      injection h with h1 _
      rw [← h1]
      cases hqa : p a with
      | false => rfl
      | true => exact absurd hqa ha

theorem prefix_dropWhile_self {α : Type} (p : α → Bool) (u w : List α)
    (hu : u <+: w) (hw : w.dropWhile p = w) : u.dropWhile p = u := by
  cases u with
  | nil => rfl
  | cons a u' =>
    obtain ⟨r, hr⟩ := hu
    rw [← hr] at hw
    simp only [List.cons_append] at hw
    exact dropWhile_cons_false p a u'
      (head_false_of_dropWhile_self p a (u' ++ r) hw)

theorem pyStrip_rev_dropWhile (s : Str) :
    (pyStrip s).reverse.dropWhile isSpaceCh = (pyStrip s).reverse := by
  unfold pyStrip
  rw [List.reverse_reverse]
  exact List.dropWhile_idempotent _ _

theorem pyStrip_dropWhile (s : Str) :
    (pyStrip s).dropWhile isSpaceCh = pyStrip s := by
  have hsuf : (pyStrip s).reverse <:+ (s.dropWhile isSpaceCh).reverse := by
    unfold pyStrip
    rw [List.reverse_reverse]
    exact List.dropWhile_suffix _
  have hu : pyStrip s <+: s.dropWhile isSpaceCh := List.reverse_suffix.mp hsuf
  exact prefix_dropWhile_self isSpaceCh _ _ hu (List.dropWhile_idempotent _ _)

theorem takeWhile_append_cons {α : Type} (q : α → Bool) (xs : List α) (b : α)
    (ys : List α) (hxs : ∀ c ∈ xs, q c = true) (hb : q b = false) :
    (xs ++ b :: ys).takeWhile q = xs := by
  induction xs with
  | nil => simp [List.takeWhile_cons, hb]
  | cons a as ih =>
    have ha : q a = true := hxs a (List.mem_cons_self a as)
    simp only [List.cons_append, List.takeWhile_cons, ha, if_true]
    rw [ih (fun c hc => hxs c (List.mem_cons_of_mem a hc))]

theorem dropWhile_append_cons {α : Type} (q : α → Bool) (xs : List α) (b : α)
    (ys : List α) (hxs : ∀ c ∈ xs, q c = true) (hb : q b = false) :
    (xs ++ b :: ys).dropWhile q = b :: ys := by
  induction xs with
  | nil => simp [List.dropWhile_cons, hb]
  | cons a as ih =>
    have ha : q a = true := hxs a (List.mem_cons_self a as)
    simp only [List.cons_append, List.dropWhile_cons, ha, if_true]
    exact ih (fun c hc => hxs c (List.mem_cons_of_mem a hc))

theorem rsplitAtSign_decomp (t l d : Str) (h : rsplitAtSign t = some (l, d)) :
    t = l ++ atSign :: d ∧ ∀ c ∈ d, notAt c = true := by
  unfold rsplitAtSign at h
  cases hdw : t.reverse.dropWhile notAt with
  | nil => rw [hdw] at h; exact Option.noConfusion h
  | cons x revLocal =>
    rw [hdw] at h
    simp only [Option.some.injEq, Prod.mk.injEq] at h
    obtain ⟨hl, hd⟩ := h
    have hx : notAt x = false := dropWhile_head_false notAt t.reverse x revLocal hdw
    have hx64 : x = atSign := by
      unfold notAt at hx
      simpa using hx
    have hsplit : t.reverse = t.reverse.takeWhile notAt ++ (x :: revLocal) := by
      rw [← hdw, List.takeWhile_append_dropWhile]
    have ht := congrArg List.reverse hsplit
    rw [List.reverse_reverse] at ht
    simp only [List.reverse_append, List.reverse_cons, List.append_assoc,
      List.singleton_append] at ht
    constructor
    · rw [ht, hl, hd, hx64]
    · intro c hc
      rw [← hd] at hc
      exact List.mem_takeWhile_imp (List.mem_reverse.mp hc)

theorem rsplitAtSign_mk (l d : Str) (hd : ∀ c ∈ d, notAt c = true) :
    rsplitAtSign (l ++ atSign :: d) = some (l, d) := by
  unfold rsplitAtSign
  have hrev : (l ++ atSign :: d).reverse = d.reverse ++ atSign :: l.reverse := by
    simp [List.reverse_append]
  have hdr : ∀ c ∈ d.reverse, notAt c = true :=
    fun c hc => hd c (List.mem_reverse.mp hc)
  have hat : notAt atSign = false := by decide
  rw [hrev, dropWhile_append_cons notAt d.reverse atSign l.reverse hdr hat,
    takeWhile_append_cons notAt d.reverse atSign l.reverse hdr hat]
  simp

/-- C8: email normalization is idempotent — normalizing an already-normalized
email returns the same value — and "testuser@GMAIL.com" normalizes to the
same stored value as "testuser@gmail.com" (the domain part is lower-cased). -/
theorem claim_C8_normalize_email :
    (∀ e : Str, normalize_email (normalize_email e) = normalize_email e)
    ∧ normalize_email
        [116, 101, 115, 116, 117, 115, 101, 114, 64, 71, 77, 65, 73, 76, 46,
          99, 111, 109]
      = [116, 101, 115, 116, 117, 115, 101, 114, 64, 103, 109, 97, 105, 108,
          46, 99, 111, 109]
    ∧ normalize_email
        [116, 101, 115, 116, 117, 115, 101, 114, 64, 103, 109, 97, 105, 108,
          46, 99, 111, 109]
      = [116, 101, 115, 116, 117, 115, 101, 114, 64, 103, 109, 97, 105, 108,
          46, 99, 111, 109] := by
  refine ⟨?_, by decide, by decide⟩
  intro e
  cases h : rsplitAtSign (pyStrip e) with
  | none =>
    have he : normalize_email e = e := by
      unfold normalize_email
      rw [h]
    rw [he]
    exact he
  | some pr =>
    obtain ⟨l, d⟩ := pr
    obtain ⟨hdecomp, hd⟩ := rsplitAtSign_decomp (pyStrip e) l d h
    have hne : normalize_email e = l ++ atSign :: d.map lowerCh := by
      unfold normalize_email
      rw [h]
    rw [hne]
    have hA : (l ++ atSign :: d.map lowerCh).dropWhile isSpaceCh
        = l ++ atSign :: d.map lowerCh := by
      cases l with
      | nil =>
        simp only [List.nil_append]
        exact dropWhile_cons_false _ _ _ (by decide)
      | cons a l' =>
        have hlead := pyStrip_dropWhile e
        rw [hdecomp] at hlead
        simp only [List.cons_append] at hlead ⊢
        exact dropWhile_cons_false _ _ _
          (head_false_of_dropWhile_self _ _ _ hlead)
    have hB : (l ++ atSign :: d.map lowerCh).reverse.dropWhile isSpaceCh
        = (l ++ atSign :: d.map lowerCh).reverse := by
      have hrevn : (l ++ atSign :: d.map lowerCh).reverse
          = (d.map lowerCh).reverse ++ atSign :: l.reverse := by
        simp [List.reverse_append]
      rw [hrevn]
      cases hdr : d.reverse with
      | nil =>
        have hdnil : d = [] := List.reverse_eq_nil_iff.mp hdr
        rw [hdnil]
        simp only [List.map_nil, List.reverse_nil, List.nil_append]
        exact dropWhile_cons_false _ _ _ (by decide)
      | cons x rd =>
        have hmaprev : (d.map lowerCh).reverse = lowerCh x :: rd.map lowerCh := by
          rw [← List.map_reverse, hdr, List.map_cons]
        rw [hmaprev]
        have htrail := pyStrip_rev_dropWhile e
        rw [hdecomp] at htrail
        have hrevt : (l ++ atSign :: d).reverse
            = x :: (rd ++ atSign :: l.reverse) := by
          simp [List.reverse_append, hdr]
        rw [hrevt] at htrail
        have hx : isSpaceCh x = false :=
          head_false_of_dropWhile_self _ _ _ htrail
        have hlx : isSpaceCh (lowerCh x) = false := by
          rw [isSpaceCh_lowerCh]
          exact hx
        simp only [List.cons_append]
        exact dropWhile_cons_false _ _ _ hlx
    have hstrip : pyStrip (l ++ atSign :: d.map lowerCh)
        = l ++ atSign :: d.map lowerCh := by
      unfold pyStrip
      rw [hA, hB, List.reverse_reverse]
    have hrs : rsplitAtSign (l ++ atSign :: d.map lowerCh)
        = some (l, d.map lowerCh) := by
      apply rsplitAtSign_mk
      intro c hc
      obtain ⟨c0, hc0, rfl⟩ := List.mem_map.mp hc
      rw [notAt_lowerCh]
      exact hd c0 hc0
    unfold normalize_email
    rw [hstrip, hrs]
    have hmap : (d.map lowerCh).map lowerCh = d.map lowerCh := by
      rw [List.map_map]
      exact List.map_congr_left (fun c _ => lowerCh_idem c)
    show l ++ atSign :: (d.map lowerCh).map lowerCh = l ++ atSign :: d.map lowerCh
    rw [hmap]

end RecipeApp
